import Mathlib

/-!
Shallow embedding of the simulation core of the forex-risk-simulator
repository (src/src/pages/IonAppComponent.tsx).

The core consists of three pure helpers:

* calculateBreakEvenRate (source lines 76-79),
* simulateTrades (source lines 84-121),
* calculateWinRateOutcomes (source lines 308-336).

JavaScript numbers are modelled as rationals (ℚ).  The source's
simulateTrades calls the ambient global Math.random() once per loop
iteration; that impurity is embedded by explicit state passing:
the global stream of random draws is a function rng : ℕ → ℚ and the
current read position in the stream is threaded through the call
(`pos` in, `nextPos` out).  A run consumes draws rng pos, rng (pos+1), …
exactly as the source consumes successive Math.random() values.
-/

/-- Record type of the source's TradeHistoryItem (source lines 35-39):
trade number, balance after the trade, and the optional outcome flag
(absent for trade 0). -/
structure TradeHistoryItem where
  trade : ℕ
  balance : ℚ
  isWin : Option Bool
deriving DecidableEq

/-- Result of simulateTrades (source line 120 returns finalBalance and
tradeHistory); nextPos additionally records how far the ambient random
stream has been consumed, making the source's use of the global
Math.random() explicit. -/
structure SimResult where
  finalBalance : ℚ
  tradeHistory : List TradeHistoryItem
  nextPos : ℕ
deriving DecidableEq

/-- Row type of the source's WinRateOutcome (source lines 41-45). -/
structure WinRateOutcome where
  winRate : ℚ
  finalBalance : ℚ
  isBreakEven : Bool
deriving DecidableEq

/-- calculateBreakEvenRate (source lines 76-79):
if rrRatio <= 0 return 100 else (1 / (rrRatio + 1)) * 100. -/
def calculateBreakEvenRate (rrRatio : ℚ) : ℚ :=
  if rrRatio ≤ 0 then 100 else 1 / (rrRatio + 1) * 100

/-- The inner padding loop of simulateTrades (source lines 113-115):
for j from j₀, count records { trade := j, balance := 0, isWin := false }. -/
def ruinPad (j₀ count : ℕ) : List TradeHistoryItem :=
  (List.range' j₀ count).map fun j => { trade := j, balance := 0, isWin := some false }

/-- The main loop of simulateTrades (source lines 96-118), recursing on the
number of remaining iterations.  `i` is the current trade number, `p` the
current position in the ambient random stream, `bal` the running balance.
Each iteration draws rng p (the source's Math.random()), decides the win by
r < winRateDecimal, applies the win or loss multiplier, appends the record
carrying the resulting balance, and on resulting balance ≤ 0.01 zeroes the
running balance, pads the remaining records and stops (the source's break). -/
def simSteps (riskDecimal rrRatio winRateDecimal : ℚ) (rng : ℕ → ℚ) :
    ℕ → ℕ → ℕ → ℚ → SimResult
  | 0, _, p, bal => { finalBalance := bal, tradeHistory := [], nextPos := p }
  | rem + 1, i, p, bal =>
    let r := rng p
    let isWin : Bool := decide (r < winRateDecimal)
    let newBal := if isWin then bal * (1 + riskDecimal * rrRatio) else bal * (1 - riskDecimal)
    if newBal ≤ 1 / 100 then
      { finalBalance := 0,
        tradeHistory := { trade := i, balance := newBal, isWin := some isWin } :: ruinPad (i + 1) rem,
        nextPos := p + 1 }
    else
      let rest := simSteps riskDecimal rrRatio winRateDecimal rng rem (i + 1) (p + 1) newBal
      { finalBalance := rest.finalBalance,
        tradeHistory := { trade := i, balance := newBal, isWin := some isWin } :: rest.tradeHistory,
        nextPos := rest.nextPos }

/-- simulateTrades (source lines 84-121).  The five numeric parameters are
the source's arguments; rng and pos embed the ambient Math.random() stream
and its current position (the source function has no randomness parameter
of its own). -/
def simulateTrades (startBalance riskPerTrade rrRatio : ℚ) (numTrades : ℕ)
    (winRate : ℚ) (rng : ℕ → ℚ) (pos : ℕ) : SimResult :=
  let riskDecimal := riskPerTrade / 100
  let winRateDecimal := winRate / 100
  let rest := simSteps riskDecimal rrRatio winRateDecimal rng numTrades 1 pos startBalance
  { finalBalance := rest.finalBalance,
    tradeHistory := { trade := 0, balance := startBalance, isWin := none } :: rest.tradeHistory,
    nextPos := rest.nextPos }

/-- The win-rate values swept by the for loop of calculateWinRateOutcomes
(source line 315: wr = 10; wr <= 90; wr += 10). -/
def winRateSweep : List ℚ := [10, 20, 30, 40, 50, 60, 70, 80, 90]

/-- calculateWinRateOutcomes (source lines 308-336). -/
def calculateWinRateOutcomes (currentStartBalance currentRisk currentRR : ℚ)
    (currentNumTrades : ℕ) : List WinRateOutcome :=
  winRateSweep.map fun wr =>
    let winRateDecimal := wr / 100
    let riskDecimal := currentRisk / 100
    let winMultiplier := 1 + riskDecimal * currentRR
    let lossMultiplier := 1 - riskDecimal
    let averageMultiplier := winRateDecimal * winMultiplier + (1 - winRateDecimal) * lossMultiplier
    let finalBal := currentStartBalance * averageMultiplier ^ currentNumTrades
    { winRate := wr, finalBalance := finalBal,
      isBreakEven := decide (calculateBreakEvenRate currentRR ≤ wr) }

/-- Relation between consecutive trajectory records stating the per-trade
law: as long as the earlier record is not ruined (balance above 0.01), the
next record advances the trade number by one, is a win exactly when the
consumed draw is below winRate/100, and multiplies the balance by
1 + riskPerTrade/100 * rrRatio on a win and by 1 - riskPerTrade/100 on a
loss.  The draw consumed for the successor of record a is rng (pos + a.trade),
pos being the stream position at the start of the run. -/
def stepRel (riskPerTrade rrRatio winRate : ℚ) (rng : ℕ → ℚ) (pos : ℕ)
    (a b : TradeHistoryItem) : Prop :=
  1 / 100 < a.balance →
    b.trade = a.trade + 1 ∧
    b.isWin = some (decide (rng (pos + a.trade) < winRate / 100)) ∧
    b.balance = a.balance *
      (if rng (pos + a.trade) < winRate / 100
       then 1 + riskPerTrade / 100 * rrRatio else 1 - riskPerTrade / 100)

theorem ruinPad_map_trade (j₀ count : ℕ) :
    (ruinPad j₀ count).map (fun rec => rec.trade) = List.range' j₀ count := by
  rw [ruinPad, List.map_map]
  exact List.map_id _

theorem mem_ruinPad {rec : TradeHistoryItem} {j₀ count : ℕ} (h : rec ∈ ruinPad j₀ count) :
    rec.balance = 0 ∧ rec.isWin = some false ∧ j₀ ≤ rec.trade ∧ rec.trade < j₀ + count := by
  simp only [ruinPad, List.mem_map] at h
  obtain ⟨j, hj, rfl⟩ := h
  rw [List.mem_range'_1] at hj
  exact ⟨rfl, rfl, hj.1, hj.2⟩

theorem simSteps_map_trade (rd rr wd : ℚ) (rng : ℕ → ℚ) :
    ∀ rem i p bal,
      ((simSteps rd rr wd rng rem i p bal).tradeHistory).map (fun rec => rec.trade) =
        List.range' i rem := by
  intro rem
  induction rem with
  | zero => intro i p bal; rfl
  | succ rem ih =>
    intro i p bal
    rw [simSteps]
    dsimp only
    split <;> split <;> simp [ruinPad_map_trade, ih, List.range'_succ]

theorem simSteps_length (rd rr wd : ℚ) (rng : ℕ → ℚ) (rem i p : ℕ) (bal : ℚ) :
    (simSteps rd rr wd rng rem i p bal).tradeHistory.length = rem := by
  have h := congrArg List.length (simSteps_map_trade rd rr wd rng rem i p bal)
  simpa using h

theorem simSteps_trade_bounds (rd rr wd : ℚ) (rng : ℕ → ℚ) {rem i p : ℕ} {bal : ℚ}
    {rec : TradeHistoryItem} (h : rec ∈ (simSteps rd rr wd rng rem i p bal).tradeHistory) :
    i ≤ rec.trade ∧ rec.trade < i + rem := by
  have hmem : rec.trade ∈ ((simSteps rd rr wd rng rem i p bal).tradeHistory).map
      (fun rec => rec.trade) := List.mem_map_of_mem _ h
  rw [simSteps_map_trade, List.mem_range'_1] at hmem
  exact hmem

theorem simSteps_zero (rd rr wd : ℚ) (rng : ℕ → ℚ) (i p : ℕ) (bal : ℚ) :
    simSteps rd rr wd rng 0 i p bal =
      { finalBalance := bal, tradeHistory := [], nextPos := p } := rfl

theorem simSteps_succ_ruin (rd rr wd : ℚ) (rng : ℕ → ℚ) (rem i p : ℕ) (bal : ℚ)
    (h : (if decide (rng p < wd) then bal * (1 + rd * rr) else bal * (1 - rd)) ≤ 1 / 100) :
    simSteps rd rr wd rng (rem + 1) i p bal =
      { finalBalance := 0,
        tradeHistory :=
          { trade := i,
            balance := if decide (rng p < wd) then bal * (1 + rd * rr) else bal * (1 - rd),
            isWin := some (decide (rng p < wd)) } :: ruinPad (i + 1) rem,
        nextPos := p + 1 } := by
  rw [simSteps]
  dsimp only
  rw [if_pos h]

theorem simSteps_succ_cont (rd rr wd : ℚ) (rng : ℕ → ℚ) (rem i p : ℕ) (bal : ℚ)
    (h : ¬ (if decide (rng p < wd) then bal * (1 + rd * rr) else bal * (1 - rd)) ≤ 1 / 100) :
    simSteps rd rr wd rng (rem + 1) i p bal =
      { finalBalance :=
          (simSteps rd rr wd rng rem (i + 1) (p + 1)
            (if decide (rng p < wd) then bal * (1 + rd * rr) else bal * (1 - rd))).finalBalance,
        tradeHistory :=
          { trade := i,
            balance := if decide (rng p < wd) then bal * (1 + rd * rr) else bal * (1 - rd),
            isWin := some (decide (rng p < wd)) } ::
            (simSteps rd rr wd rng rem (i + 1) (p + 1)
              (if decide (rng p < wd) then bal * (1 + rd * rr) else bal * (1 - rd))).tradeHistory,
        nextPos :=
          (simSteps rd rr wd rng rem (i + 1) (p + 1)
            (if decide (rng p < wd) then bal * (1 + rd * rr) else bal * (1 - rd))).nextPos } := by
  rw [simSteps]
  dsimp only
  rw [if_neg h]

theorem simSteps_congr (rd rr wd : ℚ) (f g : ℕ → ℚ) :
    ∀ rem i p bal, (∀ k < rem, f (p + k) = g (p + k)) →
      simSteps rd rr wd f rem i p bal = simSteps rd rr wd g rem i p bal := by
  intro rem
  induction rem with
  | zero => intro i p bal _; rfl
  | succ rem ih =>
    intro i p bal h
    have h0 : f p = g p := by simpa using h 0 (Nat.succ_pos rem)
    have h' : ∀ k < rem, f (p + 1 + k) = g (p + 1 + k) := by
      intro k hk
      have e : p + 1 + k = p + (k + 1) := by omega
      rw [e]
      exact h (k + 1) (by omega)
    by_cases hruin :
        (if decide (g p < wd) then bal * (1 + rd * rr) else bal * (1 - rd)) ≤ 1 / 100
    · rw [simSteps_succ_ruin rd rr wd f rem i p bal (by rw [h0]; exact hruin),
        simSteps_succ_ruin rd rr wd g rem i p bal hruin, h0]
    · rw [simSteps_succ_cont rd rr wd f rem i p bal (by rw [h0]; exact hruin),
        simSteps_succ_cont rd rr wd g rem i p bal hruin, h0,
        ih (i + 1) (p + 1) _ h']

theorem simSteps_fb_zero (rd rr wd : ℚ) (rng : ℕ → ℚ) :
    ∀ rem i p bal,
      (∃ rec ∈ (simSteps rd rr wd rng rem i p bal).tradeHistory, rec.balance ≤ 1 / 100) →
      (simSteps rd rr wd rng rem i p bal).finalBalance = 0 := by
  intro rem
  induction rem with
  | zero =>
    rintro i p bal ⟨rec, hrec, -⟩
    rw [simSteps_zero] at hrec
    cases hrec
  | succ rem ih =>
    rintro i p bal ⟨rec, hrec, hrb⟩
    by_cases hruin :
        (if decide (rng p < wd) then bal * (1 + rd * rr) else bal * (1 - rd)) ≤ 1 / 100
    · rw [simSteps_succ_ruin rd rr wd rng rem i p bal hruin]
    · rw [simSteps_succ_cont rd rr wd rng rem i p bal hruin] at hrec ⊢
      rcases List.mem_cons.mp hrec with rfl | htail
      · exact absurd hrb hruin
      · exact ih (i + 1) (p + 1) _ ⟨rec, htail, hrb⟩

theorem simSteps_nonneg (rd rr wd : ℚ) (rng : ℕ → ℚ) (h1 : 0 ≤ 1 - rd) (h2 : 0 ≤ 1 + rd * rr) :
    ∀ rem i p bal, 0 ≤ bal →
      ∀ rec ∈ (simSteps rd rr wd rng rem i p bal).tradeHistory, 0 ≤ rec.balance := by
  intro rem
  induction rem with
  | zero =>
    intro i p bal _ rec hrec
    rw [simSteps_zero] at hrec
    cases hrec
  | succ rem ih =>
    intro i p bal hbal rec hrec
    have hnb : 0 ≤ (if decide (rng p < wd) then bal * (1 + rd * rr) else bal * (1 - rd)) := by
      split
      · exact mul_nonneg hbal h2
      · exact mul_nonneg hbal h1
    by_cases hruin :
        (if decide (rng p < wd) then bal * (1 + rd * rr) else bal * (1 - rd)) ≤ 1 / 100
    · rw [simSteps_succ_ruin rd rr wd rng rem i p bal hruin] at hrec
      rcases List.mem_cons.mp hrec with rfl | hpad
      · exact hnb
      · exact le_of_eq (mem_ruinPad hpad).1.symm
    · rw [simSteps_succ_cont rd rr wd rng rem i p bal hruin] at hrec
      rcases List.mem_cons.mp hrec with rfl | htail
      · exact hnb
      · exact ih (i + 1) (p + 1) _ hnb rec htail

theorem simSteps_absorb (rd rr wd : ℚ) (rng : ℕ → ℚ) :
    ∀ rem i p bal,
      ∀ rec ∈ (simSteps rd rr wd rng rem i p bal).tradeHistory, rec.balance ≤ 1 / 100 →
        (∀ rec2 ∈ (simSteps rd rr wd rng rem i p bal).tradeHistory,
            rec.trade < rec2.trade → rec2.balance = 0 ∧ rec2.isWin = some false) ∧
        (simSteps rd rr wd rng rem i p bal).nextPos + i ≤ p + rec.trade + 1 := by
  intro rem
  induction rem with
  | zero =>
    intro i p bal rec hrec
    rw [simSteps_zero] at hrec
    cases hrec
  | succ rem ih =>
    intro i p bal rec hrec hrb
    by_cases hruin :
        (if decide (rng p < wd) then bal * (1 + rd * rr) else bal * (1 - rd)) ≤ 1 / 100
    · rw [simSteps_succ_ruin rd rr wd rng rem i p bal hruin] at hrec ⊢
      rcases List.mem_cons.mp hrec with rfl | hpad
      · refine ⟨?_, by dsimp only; omega⟩
        intro rec2 hrec2 hlt
        rcases List.mem_cons.mp hrec2 with rfl | hpad2
        · exact absurd hlt (lt_irrefl _)
        · exact ⟨(mem_ruinPad hpad2).1, (mem_ruinPad hpad2).2.1⟩
      · have hb := mem_ruinPad hpad
        refine ⟨?_, by dsimp only; omega⟩
        intro rec2 hrec2 hlt
        rcases List.mem_cons.mp hrec2 with rfl | hpad2
        · exact absurd hlt (not_lt.mpr (le_trans (Nat.le_succ i) hb.2.2.1))
        · exact ⟨(mem_ruinPad hpad2).1, (mem_ruinPad hpad2).2.1⟩
    · rw [simSteps_succ_cont rd rr wd rng rem i p bal hruin] at hrec ⊢
      rcases List.mem_cons.mp hrec with rfl | htail
      · exact absurd hrb hruin
      · have hIH := ih (i + 1) (p + 1) _ rec htail hrb
        have htr := simSteps_trade_bounds rd rr wd rng htail
        refine ⟨?_, ?_⟩
        · intro rec2 hrec2 hlt
          rcases List.mem_cons.mp hrec2 with rfl | htail2
          · exact absurd hlt (not_lt.mpr (le_trans (Nat.le_succ i) htr.1))
          · exact hIH.1 rec2 htail2 hlt
        · have h2 := hIH.2
          dsimp only at h2 ⊢
          omega

theorem chain'_ruinPad (R : TradeHistoryItem → TradeHistoryItem → Prop)
    (hR : ∀ a b, a.balance ≤ 1 / 100 → R a b) :
    ∀ count j₀ (x : TradeHistoryItem), x.balance ≤ 1 / 100 →
      List.Chain' R (x :: ruinPad j₀ count) := by
  intro count
  induction count with
  | zero =>
    intro j₀ x hx
    simp [ruinPad]
  | succ count ih =>
    intro j₀ x hx
    have hcons : ruinPad j₀ (count + 1) =
        { trade := j₀, balance := 0, isWin := some false } :: ruinPad (j₀ + 1) count := by
      rw [ruinPad, ruinPad, List.range'_succ, List.map_cons]
    rw [hcons]
    exact List.chain'_cons.mpr ⟨hR x _ hx, ih (j₀ + 1) _ (by norm_num)⟩

theorem simSteps_chain (rd rr wd : ℚ) (rng : ℕ → ℚ) (pos : ℕ) :
    ∀ rem j p bal w, p = pos + j →
      List.Chain' (fun a b => 1 / 100 < a.balance →
          b.trade = a.trade + 1 ∧
          b.isWin = some (decide (rng (pos + a.trade) < wd)) ∧
          b.balance = a.balance *
            (if rng (pos + a.trade) < wd then 1 + rd * rr else 1 - rd))
        (⟨j, bal, w⟩ :: (simSteps rd rr wd rng rem (j + 1) p bal).tradeHistory) := by
  intro rem
  induction rem with
  | zero =>
    intro j p bal w hp
    rw [simSteps_zero]
    exact List.chain'_singleton _
  | succ rem ih =>
    intro j p bal w hp
    subst hp
    by_cases hruin :
        (if decide (rng (pos + j) < wd) then bal * (1 + rd * rr) else bal * (1 - rd)) ≤ 1 / 100
    · rw [simSteps_succ_ruin rd rr wd rng rem (j + 1) (pos + j) bal hruin]
      refine List.chain'_cons.mpr ⟨?_, ?_⟩
      · intro hbal
        refine ⟨rfl, rfl, ?_⟩
        dsimp only
        simp only [decide_eq_true_eq]
        split <;> ring
      · exact chain'_ruinPad _ (fun a b hab hlt => absurd hlt (not_lt.mpr hab)) rem (j + 1 + 1)
          _ hruin
    · rw [simSteps_succ_cont rd rr wd rng rem (j + 1) (pos + j) bal hruin]
      refine List.chain'_cons.mpr ⟨?_, ?_⟩
      · intro hbal
        refine ⟨rfl, rfl, ?_⟩
        dsimp only
        simp only [decide_eq_true_eq]
        split <;> ring
      · exact ih (j + 1) (pos + j + 1) _ _ (by omega)

theorem decide_le_mono (c a b : ℚ) (hab : a ≤ b) :
    (decide (c ≤ a) : Bool) ≤ decide (c ≤ b) := by
  by_cases h : c ≤ a
  · simp [h, le_trans h hab]
  · simp [h]

/-- C7: calculateBreakEvenRate returns 100 for every rrRatio ≤ 0 and
100 / (rrRatio + 1) for every rrRatio > 0, depending on no other input;
in particular it maps 4 to 20, 0 to 100 and 1 to 50. -/
theorem C7_break_even_rate (r : ℚ) :
    (r ≤ 0 → calculateBreakEvenRate r = 100) ∧
    (0 < r → calculateBreakEvenRate r = 100 / (r + 1)) ∧
    calculateBreakEvenRate 4 = 20 ∧
    calculateBreakEvenRate 0 = 100 ∧
    calculateBreakEvenRate 1 = 50 := by
  refine ⟨?_, ?_, by norm_num [calculateBreakEvenRate],
    by norm_num [calculateBreakEvenRate], by norm_num [calculateBreakEvenRate]⟩
  · intro h
    rw [calculateBreakEvenRate, if_pos h]
  · intro h
    rw [calculateBreakEvenRate, if_neg (not_le.mpr h), div_mul_eq_mul_div, one_mul]

theorem C7_break_even_rate_witness :
    ((-1 : ℚ) ≤ 0 ∧ calculateBreakEvenRate (-1) = 100) ∧
    ((0 : ℚ) < 4 ∧ calculateBreakEvenRate 4 = 100 / (4 + 1)) :=
  ⟨⟨by norm_num, (C7_break_even_rate (-1)).1 (by norm_num)⟩,
   ⟨by norm_num, (C7_break_even_rate 4).2.1 (by norm_num)⟩⟩

/-- C5: every outcome row's isBreakEven flag equals the comparison
winRate >= calculateBreakEvenRate rrRatio, the flags are monotonically
non-decreasing along the sweep, and for rrRatio = 4 (break-even 20)
every row with winRate ≥ 20 is marked true while the 10-percent row is
marked false. -/
theorem C5_break_even_flags (sb risk rr : ℚ) (n : ℕ) :
    (∀ o ∈ calculateWinRateOutcomes sb risk rr n,
        o.isBreakEven = decide (calculateBreakEvenRate rr ≤ o.winRate)) ∧
    List.Chain' (fun o1 o2 => o1.isBreakEven ≤ o2.isBreakEven)
      (calculateWinRateOutcomes sb risk rr n) ∧
    (∀ o ∈ calculateWinRateOutcomes sb risk 4 n,
        (20 ≤ o.winRate → o.isBreakEven = true) ∧
        (o.winRate = 10 → o.isBreakEven = false)) := by
  refine ⟨?_, ?_, ?_⟩
  · intro o ho
    simp only [calculateWinRateOutcomes, winRateSweep, List.mem_map] at ho
    obtain ⟨wr, hwr, rfl⟩ := ho
    rfl
  · simp only [calculateWinRateOutcomes]
    rw [List.chain'_map, winRateSweep]
    simp only [List.chain'_cons, List.chain'_singleton, and_true]
    refine ⟨?_, ?_, ?_, ?_, ?_, ?_, ?_, ?_⟩ <;>
      exact decide_le_mono _ _ _ (by norm_num)
  · intro o ho
    simp only [calculateWinRateOutcomes, winRateSweep, List.mem_map] at ho
    obtain ⟨wr, hwr, rfl⟩ := ho
    have hbe : calculateBreakEvenRate 4 = 20 := by norm_num [calculateBreakEvenRate]
    constructor
    · intro h20
      dsimp only at h20 ⊢
      rw [hbe]
      exact decide_eq_true h20
    · intro h10
      dsimp only at h10 ⊢
      rw [hbe, h10]
      norm_num

theorem C5_break_even_flags_witness :
    (⟨10, 95, false⟩ : WinRateOutcome) ∈ calculateWinRateOutcomes 100 10 4 1 ∧
    (⟨10, 95, false⟩ : WinRateOutcome).isBreakEven =
      decide (calculateBreakEvenRate 4 ≤ (⟨10, 95, false⟩ : WinRateOutcome).winRate) :=
  ⟨by norm_num [calculateWinRateOutcomes, winRateSweep, calculateBreakEvenRate],
   (C5_break_even_flags 100 10 4 1).1 ⟨10, 95, false⟩
     (by norm_num [calculateWinRateOutcomes, winRateSweep, calculateBreakEvenRate])⟩

/-- C6: the outcome projector returns exactly the nine rows with win rates
10,20,…,90 in ascending order, each row's expected final balance is
startBalance times the average multiplier raised to the trade count, and
for startBalance 100, risk 10, rrRatio 4, one trade, the 50-percent row
carries expected final balance 115. -/
theorem C6_projector_rows (sb risk rr : ℚ) (n : ℕ) :
    (calculateWinRateOutcomes sb risk rr n).map (fun o => o.winRate) =
      [10, 20, 30, 40, 50, 60, 70, 80, 90] ∧
    (∀ o ∈ calculateWinRateOutcomes sb risk rr n,
        o.finalBalance = sb * (o.winRate / 100 * (1 + risk / 100 * rr) +
          (1 - o.winRate / 100) * (1 - risk / 100)) ^ n) ∧
    ((calculateWinRateOutcomes 100 10 4 1).map (fun o => (o.winRate, o.finalBalance))).getD 4
      (0, 0) = (50, 115) := by
  refine ⟨by simp [calculateWinRateOutcomes, winRateSweep], ?_,
    by norm_num [calculateWinRateOutcomes, winRateSweep, List.getD, calculateBreakEvenRate]⟩
  intro o ho
  simp only [calculateWinRateOutcomes, winRateSweep, List.mem_map] at ho
  obtain ⟨wr, hwr, rfl⟩ := ho
  rfl

theorem C6_projector_rows_witness :
    (⟨50, 115, true⟩ : WinRateOutcome) ∈ calculateWinRateOutcomes 100 10 4 1 ∧
    (⟨50, 115, true⟩ : WinRateOutcome).finalBalance =
      100 * ((⟨50, 115, true⟩ : WinRateOutcome).winRate / 100 * (1 + 10 / 100 * 4) +
        (1 - (⟨50, 115, true⟩ : WinRateOutcome).winRate / 100) * (1 - 10 / 100)) ^ 1 :=
  ⟨by norm_num [calculateWinRateOutcomes, winRateSweep, calculateBreakEvenRate],
   (C6_projector_rows 100 10 4 1).2.1 ⟨50, 115, true⟩
     (by norm_num [calculateWinRateOutcomes, winRateSweep, calculateBreakEvenRate])⟩

/-- C8: for every parameter set and random stream the trajectory has
exactly numTrades + 1 records, the trade indices run 0,1,…,numTrades in
ascending order, and the index-0 record carries the start balance with no
outcome, regardless of ruin. -/
theorem C8_trajectory_shape (sb risk rr : ℚ) (n : ℕ) (wr : ℚ) (rng : ℕ → ℚ) (pos : ℕ) :
    (simulateTrades sb risk rr n wr rng pos).tradeHistory.length = n + 1 ∧
    (simulateTrades sb risk rr n wr rng pos).tradeHistory.map (fun rec => rec.trade) =
      List.range (n + 1) ∧
    (simulateTrades sb risk rr n wr rng pos).tradeHistory.head? =
      some { trade := 0, balance := sb, isWin := none } := by
  refine ⟨?_, ?_, rfl⟩
  · simp [simulateTrades, simSteps_length]
  · simp [simulateTrades, simSteps_map_trade, List.range_eq_range', List.range'_succ]

/-- C4 (amended): the core functions perform no precondition checks and
signal no errors: for every input, in or out of the declared domain, they
totally compute an ordinary result of the usual shape. -/
theorem C4_total_no_validation (sb risk rr : ℚ) (n : ℕ) (wr : ℚ) (rng : ℕ → ℚ) (pos : ℕ) :
    (simulateTrades sb risk rr n wr rng pos).tradeHistory.length = n + 1 ∧
    (calculateWinRateOutcomes sb risk rr n).length = 9 := by
  constructor
  · simp [simulateTrades, simSteps_length]
  · simp [calculateWinRateOutcomes, winRateSweep]

/-- C4 counterexample: startBalance = 0 lies outside the declared domain
(the spec demands rejecting zero startBalance with a PreconditionViolation),
yet simulateTrades silently computes an ordinary trajectory for it. -/
theorem C4_counterexample :
    simulateTrades 0 10 4 1 50 (fun _ => 0) 0 =
      { finalBalance := 0,
        tradeHistory := [⟨0, 0, none⟩, ⟨1, 0, some true⟩],
        nextPos := 1 } := by
  norm_num [simulateTrades, simSteps, ruinPad]

/-- C9: with positive start balance, risk in (0,100] percent and
non-negative reward-risk ratio, every record of every trajectory carries a
non-negative balance, whatever the random stream. -/
theorem C9_balance_nonneg (sb risk rr : ℚ) (n : ℕ) (wr : ℚ) (rng : ℕ → ℚ) (pos : ℕ)
    (hsb : 0 < sb) (hr0 : 0 < risk) (hr1 : risk ≤ 100) (hrr : 0 ≤ rr) :
    ∀ rec ∈ (simulateTrades sb risk rr n wr rng pos).tradeHistory, 0 ≤ rec.balance := by
  intro rec hrec
  have hd : risk / 100 ≤ 1 := (div_le_one (by norm_num)).mpr hr1
  have h1 : 0 ≤ 1 - risk / 100 := by linarith
  have h2 : 0 ≤ 1 + risk / 100 * rr := by
    have : 0 ≤ risk / 100 * rr := mul_nonneg (by positivity) hrr
    linarith
  simp only [simulateTrades] at hrec
  rcases List.mem_cons.mp hrec with rfl | htail
  · exact le_of_lt hsb
  · exact simSteps_nonneg (risk / 100) rr (wr / 100) rng h1 h2 n 1 pos sb (le_of_lt hsb)
      rec htail

theorem C9_balance_nonneg_witness :
    ((0 : ℚ) < 100 ∧ (0 : ℚ) < 10 ∧ (10 : ℚ) ≤ 100 ∧ (0 : ℚ) ≤ 4) ∧
    ∀ rec ∈ (simulateTrades 100 10 4 2 50 (fun _ => 0) 0).tradeHistory, 0 ≤ rec.balance :=
  ⟨⟨by norm_num, by norm_num, by norm_num, by norm_num⟩,
   C9_balance_nonneg 100 10 4 2 50 (fun _ => 0) 0 (by norm_num) (by norm_num)
     (by norm_num) (by norm_num)⟩

/-- C3 (amended): simulateTrades has no randomness parameter in the source
(it reads the ambient global Math.random stream); a run is nevertheless a
deterministic function of the parameters and the draws it consumes: two
streams that agree on the consumed positions give identical results. -/
theorem C3_deterministic_in_draws (sb risk rr : ℚ) (n : ℕ) (wr : ℚ) (f g : ℕ → ℚ) (pos : ℕ)
    (h : ∀ k < n, f (pos + k) = g (pos + k)) :
    simulateTrades sb risk rr n wr f pos = simulateTrades sb risk rr n wr g pos := by
  simp only [simulateTrades]
  rw [simSteps_congr (risk / 100) rr (wr / 100) f g n 1 pos sb h]

theorem C3_deterministic_in_draws_witness :
    (∀ k < 1, (fun j => if j = 0 then (0 : ℚ) else 1 / 2) (0 + k) =
        (fun j => if j = 0 then (0 : ℚ) else 1 / 3) (0 + k)) ∧
    simulateTrades 100 10 4 1 50 (fun j => if j = 0 then (0 : ℚ) else 1 / 2) 0 =
      simulateTrades 100 10 4 1 50 (fun j => if j = 0 then (0 : ℚ) else 1 / 3) 0 :=
  ⟨by norm_num,
   C3_deterministic_in_draws 100 10 4 1 50 _ _ 0 (by norm_num)⟩

/-- C3 counterexample: with the ambient global stream of the source (no
injected argument), two consecutive runs with identical parameters read
different segments of the very same fixed stream and return different
trajectories: the first run consumes the draw at position 0 (a win), the
second starts at the position where the first stopped and draws a loss. -/
theorem C3_counterexample :
    (simulateTrades 100 10 4 1 50 (fun k => if k = 0 then 0 else 999 / 1000) 0).tradeHistory ≠
      (simulateTrades 100 10 4 1 50 (fun k => if k = 0 then 0 else 999 / 1000)
        ((simulateTrades 100 10 4 1 50
          (fun k => if k = 0 then 0 else 999 / 1000) 0).nextPos)).tradeHistory := by
  norm_num [simulateTrades, simSteps, ruinPad]

/-- C10: whenever some trade (index ≥ 1) drives the recorded balance to
at most 0.01, the returned finalBalance is exactly 0 — including ruin on
the very last trade, where the returned finalBalance 0 differs from the
last record's stored balance, which retains the positive sub-threshold
value (1/100 in the concrete run below). -/
theorem C10_final_balance_on_ruin (sb risk rr : ℚ) (n : ℕ) (wr : ℚ) (rng : ℕ → ℚ) (pos : ℕ)
    (h : ∃ rec ∈ (simulateTrades sb risk rr n wr rng pos).tradeHistory,
        1 ≤ rec.trade ∧ rec.balance ≤ 1 / 100) :
    (simulateTrades sb risk rr n wr rng pos).finalBalance = 0 ∧
    (simulateTrades 1 99 4 1 50 (fun _ => 999 / 1000) 0).finalBalance = 0 ∧
    ((simulateTrades 1 99 4 1 50 (fun _ => 999 / 1000) 0).tradeHistory.getD 1
      ⟨0, 0, none⟩).balance = 1 / 100 ∧
    (1 : ℚ) / 100 ≠ 0 := by
  refine ⟨?_, by norm_num [simulateTrades, simSteps, ruinPad],
    by norm_num [simulateTrades, simSteps, ruinPad, List.getD], by norm_num⟩
  obtain ⟨rec, hrec, htr, hrb⟩ := h
  simp only [simulateTrades] at hrec ⊢
  rcases List.mem_cons.mp hrec with rfl | htail
  · simp at htr
  · exact simSteps_fb_zero (risk / 100) rr (wr / 100) rng n 1 pos sb ⟨rec, htail, hrb⟩

theorem C10_final_balance_on_ruin_witness :
    (∃ rec ∈ (simulateTrades 100 100 1 2 50 (fun _ => 999 / 1000) 0).tradeHistory,
        1 ≤ rec.trade ∧ rec.balance ≤ 1 / 100) ∧
    (simulateTrades 100 100 1 2 50 (fun _ => 999 / 1000) 0).finalBalance = 0 :=
  have hex : ∃ rec ∈ (simulateTrades 100 100 1 2 50 (fun _ => 999 / 1000) 0).tradeHistory,
      1 ≤ rec.trade ∧ rec.balance ≤ 1 / 100 :=
    ⟨⟨1, 0, some false⟩, by norm_num [simulateTrades, simSteps, ruinPad], by norm_num⟩
  ⟨hex, (C10_final_balance_on_ruin 100 100 1 2 50 (fun _ => 999 / 1000) 0 hex).1⟩

/-- C1 (amended): once some trade's recorded balance is ≤ 0.01, every
record with a larger trade index carries balance 0 and outcome loss, and
no draw beyond that trade is consumed from the random stream; the record
of the ruining trade itself retains the computed sub-threshold balance
(shown separately by the counterexample) rather than 0. -/
theorem C1_ruin_absorbing (sb risk rr : ℚ) (n : ℕ) (wr : ℚ) (rng : ℕ → ℚ) (pos : ℕ) :
    ∀ rec ∈ (simulateTrades sb risk rr n wr rng pos).tradeHistory,
      1 ≤ rec.trade → rec.balance ≤ 1 / 100 →
        (∀ rec2 ∈ (simulateTrades sb risk rr n wr rng pos).tradeHistory,
            rec.trade < rec2.trade → rec2.balance = 0 ∧ rec2.isWin = some false) ∧
        (simulateTrades sb risk rr n wr rng pos).nextPos ≤ pos + rec.trade := by
  intro rec hrec htr hrb
  simp only [simulateTrades] at hrec ⊢
  rcases List.mem_cons.mp hrec with rfl | htail
  · simp at htr
  · have h := simSteps_absorb (risk / 100) rr (wr / 100) rng n 1 pos sb rec htail hrb
    refine ⟨?_, by have h2 := h.2; omega⟩
    intro rec2 hrec2 hlt
    rcases List.mem_cons.mp hrec2 with rfl | htail2
    · simp at hlt
    · exact h.1 rec2 htail2 hlt

theorem C1_ruin_absorbing_witness :
    ((⟨1, 1 / 100, some false⟩ : TradeHistoryItem) ∈
        (simulateTrades 1 99 4 3 50 (fun _ => 999 / 1000) 0).tradeHistory ∧
      1 ≤ (⟨1, 1 / 100, some false⟩ : TradeHistoryItem).trade ∧
      (⟨1, 1 / 100, some false⟩ : TradeHistoryItem).balance ≤ 1 / 100) ∧
    ((∀ rec2 ∈ (simulateTrades 1 99 4 3 50 (fun _ => 999 / 1000) 0).tradeHistory,
        (⟨1, 1 / 100, some false⟩ : TradeHistoryItem).trade < rec2.trade →
          rec2.balance = 0 ∧ rec2.isWin = some false) ∧
      (simulateTrades 1 99 4 3 50 (fun _ => 999 / 1000) 0).nextPos ≤
        0 + (⟨1, 1 / 100, some false⟩ : TradeHistoryItem).trade) :=
  ⟨⟨by norm_num [simulateTrades, simSteps, ruinPad], by norm_num, by norm_num⟩,
   C1_ruin_absorbing 1 99 4 3 50 (fun _ => 999 / 1000) 0 ⟨1, 1 / 100, some false⟩
     (by norm_num [simulateTrades, simSteps, ruinPad]) (by norm_num) (by norm_num)⟩

/-- C1 counterexample: with start balance 1, risk 99 percent and a losing
draw, the ruining trade's resulting balance is 1/100 ≤ 0.01; the record
appended for that very trade stores 1/100, not the exact 0 the claim
asserts (only the running balance and the padding records are zeroed). -/
theorem C1_counterexample :
    ((simulateTrades 1 99 4 2 50 (fun _ => 999 / 1000) 0).tradeHistory.getD 1
      ⟨0, 0, none⟩).balance = 1 / 100 ∧
    ((simulateTrades 1 99 4 2 50 (fun _ => 999 / 1000) 0).tradeHistory.getD 1
      ⟨0, 0, none⟩).balance ≠ 0 := by
  norm_num [simulateTrades, simSteps, ruinPad, List.getD]

/-- C2 (amended): along any trajectory, each record following a
not-yet-ruined record (balance above 0.01) advances the trade index by
one, is a win exactly when its consumed draw r satisfies
r < winRate / 100, and multiplies the balance by 1 + riskPerTrade/100 *
rrRatio on a win and 1 - riskPerTrade/100 on a loss; concretely, with
startBalance 100, risk 10, rrRatio 4, one trade and winRate 50 (> 0), a
draw of 0.0 yields the 140 win record and a draw of 0.999 yields the 90
loss record. -/
theorem C2_per_trade_law (sb risk rr : ℚ) (n : ℕ) (wr : ℚ) (rng : ℕ → ℚ) (pos : ℕ) :
    List.Chain' (stepRel risk rr wr rng pos)
      (simulateTrades sb risk rr n wr rng pos).tradeHistory ∧
    (simulateTrades 100 10 4 1 50 (fun _ => 0) 0).tradeHistory =
      [⟨0, 100, none⟩, ⟨1, 140, some true⟩] ∧
    (simulateTrades 100 10 4 1 50 (fun _ => 999 / 1000) 0).tradeHistory =
      [⟨0, 100, none⟩, ⟨1, 90, some false⟩] := by
  refine ⟨?_, by norm_num [simulateTrades, simSteps, ruinPad],
    by norm_num [simulateTrades, simSteps, ruinPad]⟩
  have h := simSteps_chain (risk / 100) rr (wr / 100) rng pos n 0 pos sb none rfl
  simp only [simulateTrades]
  exact h

/-- C2 counterexample: winRateAssumption = 0 lies in the declared domain
[0,100] and the claim's win scenario omits the positivity qualifier: with
winRate 0 a draw of 0.0 is a loss (0 < 0/100 fails) and the trajectory is
the 90 loss record, not the claimed 140 win record.  Moreover the
unguarded per-trade law fails after ruin: with start balance 1, risk 99
and a first losing draw reaching ruin, trade 2 is recorded as a loss even
though the stream's value at the next position, 0, satisfies 0 < 50/100
(that draw is never consumed, the record is ruin padding). -/
theorem C2_counterexample :
    ((simulateTrades 100 10 4 1 0 (fun _ => 0) 0).tradeHistory =
        [⟨0, 100, none⟩, ⟨1, 90, some false⟩] ∧
      ([⟨0, 100, none⟩, ⟨1, 90, some false⟩] : List TradeHistoryItem) ≠
        [⟨0, 100, none⟩, ⟨1, 140, some true⟩]) ∧
    (((simulateTrades 1 99 4 2 50 (fun k => if k = 0 then 999 / 1000 else 0)
          0).tradeHistory.getD 2 ⟨0, 0, none⟩).isWin = some false ∧
      ((fun k => if k = 0 then (999 : ℚ) / 1000 else 0) 1 < 50 / 100)) := by
  refine ⟨⟨?_, ?_⟩, ?_, ?_⟩
  · norm_num [simulateTrades, simSteps, ruinPad]
  · norm_num
  · norm_num [simulateTrades, simSteps, ruinPad, List.getD]
  · norm_num
